import Mathlib

/-!
Verification development for the movie identity-resolution and coherence
pipeline (movie_estandarizer / final_check / parche_output).

The Python sources are shallowly embedded: each relevant Python function is
translated into an executable Lean definition of the same name, operating on
`List Char` (for the regex-based string normalizers of
`movie_estandarizer/estandarizer.py`) or on explicit lists of row records
(for the pandas DataFrame transformations).  Pandas cells that may hold NaN
are modelled as `Option String`; a missing value is `none`.  Characters are
treated at the ASCII level (the Python sources apply `str.upper`, `\s`, `\w`
to ASCII movie names; the model fixes that character class).  Strings are
assumed newline-free, so the `$` anchor and `.*` of the Python patterns reach
the end of the string.

Each regex substitution of the source is translated by hand into a list
function implementing the exact leftmost-match semantics of `re.sub` for that
particular pattern; the correspondence is documented at each definition.
-/
/-! ## Character classes (Python `\s`, `\w`, `str.upper` on ASCII) -/
/-- Python regex `\s` (ASCII): space, tab, newline, carriage return,
vertical tab, form feed. -/
def isWsChar (c : Char) : Bool :=
  c == ' ' || c == '\t' || c == '\n' || c == '\r' || c == '\x0b' || c == '\x0c'

/-- Python regex `\w` (ASCII): letters, digits, underscore. -/
def isWordChar (c : Char) : Bool :=
  c.isAlphanum || c == '_'

/-- Python `str.upper` on one ASCII character. -/
def pyUpperChar (c : Char) : Char :=
  if 97 ≤ c.toNat ∧ c.toNat ≤ 122 then Char.ofNat (c.toNat - 32) else c

/-- Python `str.upper` on an ASCII string. -/
def pyUpper (l : List Char) : List Char := l.map pyUpperChar

/-- Python `str.strip()`: drop leading and trailing whitespace. -/
def stripL (l : List Char) : List Char :=
  ((l.dropWhile isWsChar).reverse.dropWhile isWsChar).reverse

/-- Worker for `collapseWs`; the flag records whether the previous character
was whitespace (so the current run is already represented by one space). -/
def collapseGo : Bool → List Char → List Char
  | _, [] => []
  | true, c :: cs => if isWsChar c then collapseGo true cs else c :: collapseGo false cs
  | false, c :: cs => if isWsChar c then ' ' :: collapseGo true cs else c :: collapseGo false cs

/-- Python `re.sub(r'\s+', ' ', s)`: replace every maximal whitespace run by
a single space (no trimming at the ends). -/
def collapseWs (l : List Char) : List Char := collapseGo false l

/-! ## Pattern primitives for the suffix-stripping regexes -/
/-- Match `pat` as a case-insensitive prefix of `l`; on success return the
remainder of `l`. -/
def dropCI : List Char → List Char → Option (List Char)
  | [], l => some l
  | _ :: _, [] => none
  | p :: ps, c :: cs => if pyUpperChar c == pyUpperChar p then dropCI ps cs else none

/-- Does `l` start (case-insensitively) with `pat`? -/
def startsWithCI (pat l : List Char) : Bool := (dropCI pat l).isSome

/-- Python `re.sub(r'\s+TOK$', '', s, flags=re.IGNORECASE)` for a literal
token `TOK`: if the string ends with the token preceded by at least one
whitespace character, remove the token together with the whole adjacent
whitespace run (the leftmost match of `\s+` starts at the beginning of that
maximal run). -/
def stripEndTok (tok l : List Char) : List Char :=
  match dropCI tok.reverse l.reverse with
  | none => l
  | some rest => if rest.head?.any isWsChar then (rest.dropWhile isWsChar).reverse else l

/-- Python `re.sub(r'\s+TOK.*$', '', s, flags=re.IGNORECASE)` for a literal
token `TOK`: delete from the start of the leftmost maximal whitespace run
that is immediately followed by the token, to the end of the string. -/
def stripFromTokGo (tok : List Char) : List Char → List Char
  | [] => []
  | c :: cs =>
    if isWsChar c then
      if startsWithCI tok (cs.dropWhile isWsChar) then []
      else c :: stripFromTokGo tok cs
    else c :: stripFromTokGo tok cs

/-- See `stripFromTokGo`. -/
def stripFromTok (tok l : List Char) : List Char := stripFromTokGo tok l

/-! ## The estandarizer pattern lists

`LANGUAGE_PATTERNS` holds each of the five language suffixes twice (upper
case and title case); under `re.IGNORECASE` the second five are the same
patterns again, so one traversal of the list is two case-insensitive passes
of ESP, SUB, DUB, DOB, SP in order.  `FORMAT_PATTERNS` is
4DX, IMAX, SCREENX, XE, 3D, 2D, 4D in order. -/
/-- One pass of the five `LANGUAGE_PATTERNS` (ESP, SUB, DUB, DOB, SP, each
`re.sub(r'\s+TOK$', ...)` case-insensitively, applied in this order). -/
def langPass (l : List Char) : List Char :=
  stripEndTok ['S', 'P']
    (stripEndTok ['D', 'O', 'B']
      (stripEndTok ['D', 'U', 'B']
        (stripEndTok ['S', 'U', 'B']
          (stripEndTok ['E', 'S', 'P'] l))))

/-- The seven `FORMAT_PATTERNS` (`\s+4DX.*$`, `\s+IMAX.*$`, `\s+SCREENX.*$`,
`\s+XE.*$`, `\s+3D.*$`, `\s+2D.*$`, `\s+4D.*$`), applied in this order. -/
def formatPass (l : List Char) : List Char :=
  stripFromTok ['4', 'D']
    (stripFromTok ['2', 'D']
      (stripFromTok ['3', 'D']
        (stripFromTok ['X', 'E']
          (stripFromTok ['S', 'C', 'R', 'E', 'E', 'N', 'X']
            (stripFromTok ['I', 'M', 'A', 'X']
              (stripFromTok ['4', 'D', 'X'] l))))))

/-- The ten `LANGUAGE_PATTERNS` followed by the seven `FORMAT_PATTERNS`:
two case-insensitive language passes, then the format pass.  This is the
pattern part shared by `normalize_title_level2` (via
`LANGUAGE_PATTERNS` + `FORMAT_PATTERNS`) and `generate_unique_name`
(via `ALL_PATTERNS`). -/
def allPatterns (l : List Char) : List Char := formatPass (langPass (langPass l))

/-- Python `re.sub(r'[^\w\s]', ' ', s)`: every character that is neither a
word character nor whitespace becomes a single space. -/
def punctToSpace (l : List Char) : List Char :=
  l.map (fun c => if isWordChar c || isWsChar c then c else ' ')

/-- Match `pat` as an exact (case-sensitive) prefix of `l`. -/
def dropExact : List Char → List Char → Option (List Char)
  | [], l => some l
  | _ :: _, [] => none
  | p :: ps, c :: cs => if c == p then dropExact ps cs else none

/-- One alternative of `re.sub(r'^(THE|LA|EL|LOS|LAS|UN|UNA)\s+', '', s)`:
the article must be an exact prefix followed by at least one whitespace
character; the article and the whole (greedy) whitespace run are removed. -/
def tryArticle (art l : List Char) : Option (List Char) :=
  match dropExact art l with
  | none => none
  | some rest => if rest.head?.any isWsChar then some (rest.dropWhile isWsChar) else none

/-- The alternation order of the article pattern.  An alternative whose
article matches but is not followed by whitespace backtracks to the next
alternative, exactly as Python's regex engine does. -/
def articleStripGo : List (List Char) → List Char → List Char
  | [], l => l
  | a :: as, l =>
    match tryArticle a l with
    | some r => r
    | none => articleStripGo as l

/-- Python `re.sub(r'^(THE|LA|EL|LOS|LAS|UN|UNA)\s+', '', s)` (case
sensitive; it runs on an already-uppercased string). -/
def articleStrip (l : List Char) : List Char :=
  articleStripGo [['T', 'H', 'E'], ['L', 'A'], ['E', 'L'], ['L', 'O', 'S'],
    ['L', 'A', 'S'], ['U', 'N'], ['U', 'N', 'A']] l

/-! ## The normalizer functions of `movie_estandarizer/estandarizer.py` -/
/-- Embeds `MovieStandardizer.normalize_title_level2` (estandarizer.py, lines
172-193): empty input returns the empty string; otherwise the ten language
patterns, the seven format patterns, `strip()`, and whitespace collapsing
are applied in that order. -/
def normalize_title_level2 (s : String) : String :=
  if s = "" then "" else String.mk (collapseWs (stripL (allPatterns s.data)))

/-- The core of `generate_unique_name` on a non-empty string: `upper()`,
`ALL_PATTERNS`, punctuation to spaces, whitespace collapsing, leading-article
removal, final `strip()` (estandarizer.py, lines 202-217). -/
def uniqueCore (l : List Char) : List Char :=
  stripL (articleStrip (collapseWs (punctToSpace (allPatterns (pyUpper l)))))

/-- Embeds `MovieStandardizer.generate_unique_name` (estandarizer.py, lines
195-217): empty input returns the empty string; otherwise `uniqueCore`. -/
def generate_unique_name (s : String) : String :=
  if s = "" then "" else String.mk (uniqueCore s.data)

/-- The canonical key of a raw (already level-1) title: level-2
normalization followed by `generate_unique_name`, the composition used for
`NOMBRE_UNICO` in `process_batch` (estandarizer.py, lines 277-281). -/
def canonical_key (s : String) : String :=
  generate_unique_name (normalize_title_level2 s)

/-- Python `re.sub(r'\s+RUN\s*$', '', s)` where `RUN` is a nonempty run of
characters satisfying `p` (digits for `\d+`, Roman letters for `[IVX]+`):
if, after the optional trailing whitespace, the string ends with a `p`-run
preceded by at least one whitespace character, remove the trailing
whitespace, the run, and the whole whitespace run before it. -/
def stripTrailingRun (p : Char → Bool) (l : List Char) : List Char :=
  let r1 := l.reverse.dropWhile isWsChar
  if r1.head?.any p then
    let r2 := r1.dropWhile p
    if r2.head?.any isWsChar then (r2.dropWhile isWsChar).reverse else l
  else l

/-- Python `re.sub(r':\s+.*$', '', s)`: delete from the leftmost colon that
is immediately followed by whitespace, to the end of the string. -/
def colonSubtitle : List Char → List Char
  | [] => []
  | c :: cs =>
    if c == ':' && cs.head?.any isWsChar then []
    else c :: colonSubtitle cs

/-- Python `re.sub(r'\s+-\s+.*$', '', s)`: delete from the start of the
leftmost maximal whitespace run that is followed by a dash and further
whitespace, to the end of the string. -/
def dashSubtitle : List Char → List Char
  | [] => []
  | c :: cs =>
    if isWsChar c && (cs.dropWhile isWsChar).head?.any (· == '-')
        && ((cs.dropWhile isWsChar).tail.head?.any isWsChar) then []
    else c :: dashSubtitle cs

/-- The four stripping stages of `detect_family` in source order: trailing
number, trailing Roman numeral, colon subtitle, dash subtitle
(estandarizer.py, lines 230-233). -/
def famStages (l : List Char) : List Char :=
  dashSubtitle (colonSubtitle
    (stripTrailingRun (fun c => c == 'I' || c == 'V' || c == 'X')
      (stripTrailingRun Char.isDigit l)))

/-- Embeds `MovieStandardizer.detect_family` (estandarizer.py, lines 219-235):
empty input is returned unchanged; otherwise the four stages then
`strip()`. -/
def detect_family (s : String) : String :=
  if s = "" then s else String.mk (stripL (famStages s.data))

/-- Every character is a fixed point of `pyUpperChar` (no lower-case ASCII
letters occur). -/
def UpperFixed (l : List Char) : Prop := ∀ c ∈ l, pyUpperChar c = c

/-- Every character is a word character or whitespace. -/
def WordWsOnly (l : List Char) : Prop := ∀ c ∈ l, (isWordChar c || isWsChar c) = true

/-- Every whitespace character is a plain space. -/
def AllWsSpace (l : List Char) : Prop := ∀ c ∈ l, isWsChar c = true → c = ' '

/-- No two adjacent whitespace characters (an inductive predicate, so that
applying it to a large normalizer term never forces evaluation). -/
inductive NoAdj : List Char → Prop where
  | nil : NoAdj []
  | single (c : Char) : NoAdj [c]
  | cons2 (a b : Char) (t : List Char)
      (hab : ¬(isWsChar a = true ∧ isWsChar b = true))
      (ht : NoAdj (b :: t)) : NoAdj (a :: b :: t)

/-! ## Python string order

`sorted()` and pandas compare strings by code points, lexicographically.
(The built-in `String` order of the library does not reduce under kernel
evaluation, so the order is defined here directly on the character lists.) -/
/-- Code-point lexicographic `<=` on character lists. -/
def charsLe : List Char → List Char → Bool
  | [], _ => true
  | _ :: _, [] => false
  | a :: as, b :: bs =>
    if a.toNat < b.toNat then true
    else if b.toNat < a.toNat then false
    else charsLe as bs

/-- Code-point lexicographic `<` on character lists. -/
def charsLt : List Char → List Char → Bool
  | [], [] => false
  | [], _ :: _ => true
  | _ :: _, [] => false
  | a :: as, b :: bs =>
    if a.toNat < b.toNat then true
    else if b.toNat < a.toNat then false
    else charsLt as bs

/-- Python `<=` on strings. -/
def pyStrLe (a b : String) : Bool := charsLe a.data b.data

/-- Python `<` on strings. -/
def pyStrLt (a b : String) : Bool := charsLt a.data b.data

instance pyStrLeTotal : IsTotal String (fun a b => pyStrLe a b = true) := by
  have h : ∀ x y : List Char, charsLe x y = true ∨ charsLe y x = true := by
    intro x
    induction x with
    | nil => intro y; exact Or.inl rfl
    | cons a as ih =>
      intro y
      cases y with
      | nil => exact Or.inr rfl
      | cons b bs =>
        by_cases h1 : a.toNat < b.toNat
        · exact Or.inl (by simp [charsLe, h1])
        · by_cases h2 : b.toNat < a.toNat
          · exact Or.inr (by simp [charsLe, h1, h2])
          · rcases ih bs with h3 | h3
            · exact Or.inl (by simp [charsLe, h1, h2, h3])
            · exact Or.inr (by simp [charsLe, h1, h2, h3])
  exact ⟨fun a b => h a.data b.data⟩

instance pyStrLeTrans : IsTrans String (fun a b => pyStrLe a b = true) := by
  have h : ∀ x y z : List Char,
      charsLe x y = true → charsLe y z = true → charsLe x z = true := by
    intro x
    induction x with
    | nil => intro y z _ _; rfl
    | cons a as ih =>
      intro y z hxy hyz
      cases y with
      | nil => simp [charsLe] at hxy
      | cons b bs =>
        cases z with
        | nil => simp [charsLe] at hyz
        | cons c cs =>
          simp only [charsLe] at hxy hyz ⊢
          by_cases h1 : a.toNat < b.toNat <;> by_cases h2 : b.toNat < c.toNat <;>
            by_cases h3 : b.toNat < a.toNat <;> by_cases h4 : c.toNat < b.toNat <;>
            by_cases h5 : a.toNat < c.toNat <;> by_cases h6 : c.toNat < a.toNat <;>
            simp [h1, h2, h3, h4, h5, h6] at hxy hyz ⊢ <;>
            first
              | omega
              | exact ih bs cs hxy hyz
  exact ⟨fun a b c => h a.data b.data c.data⟩

/-! ## The re-indexing operation of `final_check` (claim C2)

`MoviesMasterProcessor.remap_movie_ids_perfect`
(movies_master_processor.py, lines 125-141) and
`remap_movie_ids_optimized` (final_processor.py, lines 281-304) both run
`unique_names = sorted(df['NOMBRE_UNICO'].unique())`,
`name_to_id = dict(name -> index + 1)` and map the column through it.  A row
of the table is modelled by the two columns this operation touches; at this
stage of the pipeline `NOMBRE_UNICO` has already been cleaned to a plain
string (`clean_symbols_from_key_fields` maps NaN to the empty string). -/
structure MRow where
  nombre : String
  movie_id : Nat
deriving DecidableEq

/-- Embeds `sorted(df['NOMBRE_UNICO'].unique())`: the distinct values of the column
in ascending code-point order.  (`unique()` returns first-occurrence order,
which `sorted` then discards; `dedup` keeps the same set of elements.) -/
def sortedUniqueNames (t : List MRow) : List String :=
  List.insertionSort (fun a b => pyStrLe a b = true) (t.map MRow.nombre).dedup

/-- The remap: every row's `MOVIE_ID` becomes the position of its
`NOMBRE_UNICO` in the sorted distinct list, plus one. -/
def remap_movie_ids_perfect (t : List MRow) : List MRow :=
  t.map (fun r => { nombre := r.nombre,
                    movie_id := (sortedUniqueNames t).indexOf r.nombre + 1 })

/-- Rank as the spec words it: one plus the number of distinct
`NOMBRE_UNICO` values strictly smaller than the given one. -/
def rankOfName (t : List MRow) (n : String) : Nat :=
  (t.map MRow.nombre).dedup.countP (fun m => pyStrLt m n) + 1

/-! ## The enrichment-table row model (claims C4, C5, C7)

A row of the 17-column pipeline table, restricted to the columns the
coherence passes read or write: the group key `NOMBRE_UNICO` and the eight
propagated metadata columns.  A pandas cell is `Option String`; `none` is
NaN. -/
inductive EField where
  | categoria
  | descripcion
  | familia
  | actor_principal
  | director
  | duracion
  | categoria_cinepolis
  | descripcion2
deriving DecidableEq

structure ERow where
  nombre_unico : Option String
  categoria : Option String
  descripcion : Option String
  familia : Option String
  actor_principal : Option String
  director : Option String
  duracion : Option String
  categoria_cinepolis : Option String
  descripcion2 : Option String
deriving DecidableEq

/-- Column access by field name. -/
def getField (r : ERow) : EField → Option String
  | EField.categoria => r.categoria
  | EField.descripcion => r.descripcion
  | EField.familia => r.familia
  | EField.actor_principal => r.actor_principal
  | EField.director => r.director
  | EField.duracion => r.duracion
  | EField.categoria_cinepolis => r.categoria_cinepolis
  | EField.descripcion2 => r.descripcion2

/-- Row constructor in column order. -/
def eRow (k cat desc fam act dir dur catc d2 : Option String) : ERow :=
  ⟨k, cat, desc, fam, act, dir, dur, catc, d2⟩

/-- A row holding only the group key and a `DIRECTOR` value. -/
def rowKD (k d : Option String) : ERow :=
  eRow k none none none none d none none none

/-- The pandas emptiness test used throughout the sources:
`isna(v) | v == ''`. -/
def isEmptyCell (o : Option String) : Prop := o = none ∨ o = some ""

/-- Boolean form of `isEmptyCell`. -/
def isEmptyCellB : Option String → Bool
  | none => true
  | some s => s == ""

instance isEmptyCellDecidable (o : Option String) : Decidable (isEmptyCell o) :=
  inferInstanceAs (Decidable (o = none ∨ o = some ""))

/-- Embeds `df[df['NOMBRE_UNICO'] == k]`: the group of rows with key `k` (a NaN
key matches nothing, as in pandas). -/
def groupOf (t : List ERow) (k : String) : List ERow :=
  t.filter (fun r => r.nombre_unico == some k)

/-- Embeds `group[field].dropna()` followed by the `!= ''` filter
(movie_enricher.py, lines 95-96). -/
def nonEmptyVals (t : List ERow) (k : String) (f : EField) : List String :=
  ((groupOf t k).filterMap (fun r => getField r f)).filter (fun s => !(s == ""))

/-- Embeds `group[field].dropna()` alone, with the empty string kept — the value
collection used by `ensure_vertical_coherence`
(movies_master_processor.py, line 157). -/
def evcVals (t : List ERow) (k : String) (f : EField) : List String :=
  (groupOf t k).filterMap (fun r => getField r f)

/-- Pandas `Series.mode()[0]`: `mode()` returns the most frequent values
sorted in ascending order, so `[0]` is the code-point-smallest value among
those of maximal multiplicity. -/
def pandasMode (vs : List String) : String :=
  let m := (vs.map (fun v => vs.count v)).foldr max 0
  let modal := (vs.filter (fun v => vs.count v == m)).dedup
  (List.insertionSort (fun a b => pyStrLe a b = true) modal).headD ""

/-- Pandas `Series.value_counts().index[0]` (and `iloc[0]` for a singleton):
a value of maximal multiplicity.  Pandas does not specify the order of
equal-count values, so the model picks the first occurrence; the theorems
about it do not depend on that tie choice. -/
def valueCountsTop (vs : List String) : String :=
  vs.foldl (fun best v => if vs.count v > vs.count best then v else best) (vs.headD "")

/-- One cell of `propagate_data_within_groups`: an empty slot in a group
that has non-empty values for the field receives the modal value
(movie_enricher.py, lines 93-106). -/
def propagCell (t : List ERow) (k : String) (f : EField) (v : Option String) : Option String :=
  if isEmptyCellB v && !(nonEmptyVals t k f).isEmpty
  then some (pandasMode (nonEmptyVals t k f)) else v

/-- Embeds `MovieEnricher.propagate_data_within_groups` (movie_enricher.py, lines
72-109): for every group (of size above one) and every field of
`fields_to_propagate`, empty slots receive the group's modal non-empty
value.  Groups are disjoint and elections read the pre-pass values, so the
in-place pandas loop equals this per-row map. -/
def propagate_data_within_groups (t : List ERow) : List ERow :=
  t.map fun r =>
    match r.nombre_unico with
    | none => r
    | some k =>
      if 1 < (groupOf t k).length then
        { nombre_unico := r.nombre_unico,
          categoria := propagCell t k EField.categoria r.categoria,
          descripcion := propagCell t k EField.descripcion r.descripcion,
          familia := propagCell t k EField.familia r.familia,
          actor_principal := propagCell t k EField.actor_principal r.actor_principal,
          director := propagCell t k EField.director r.director,
          duracion := propagCell t k EField.duracion r.duracion,
          categoria_cinepolis := propagCell t k EField.categoria_cinepolis r.categoria_cinepolis,
          descripcion2 := propagCell t k EField.descripcion2 r.descripcion2 }
      else r

/-- One cell of `vertical_replication`: when the group has non-empty values
for the field, every row of the group (empty or not) receives the
`value_counts().index[0]` value (GOAT_enrichment.py, lines 394-400). -/
def vrCell (t : List ERow) (k : String) (f : EField) (v : Option String) : Option String :=
  if !(nonEmptyVals t k f).isEmpty
  then some (valueCountsTop (nonEmptyVals t k f)) else v

/-- Embeds `GOATMovieEnricher.vertical_replication` (GOAT_enrichment.py, lines
376-402): rows with a NaN or empty key are skipped; otherwise every one of
the eight fields of the whole group is overwritten with the group's most
frequent non-empty value whenever one exists. -/
def vertical_replication (t : List ERow) : List ERow :=
  t.map fun r =>
    match r.nombre_unico with
    | none => r
    | some k =>
      if k = "" then r
      else
        { nombre_unico := r.nombre_unico,
          categoria := vrCell t k EField.categoria r.categoria,
          descripcion := vrCell t k EField.descripcion r.descripcion,
          familia := vrCell t k EField.familia r.familia,
          actor_principal := vrCell t k EField.actor_principal r.actor_principal,
          director := vrCell t k EField.director r.director,
          duracion := vrCell t k EField.duracion r.duracion,
          categoria_cinepolis := vrCell t k EField.categoria_cinepolis r.categoria_cinepolis,
          descripcion2 := vrCell t k EField.descripcion2 r.descripcion2 }

/-- One cell of `ensure_vertical_coherence`: the values collection keeps
empty strings (`dropna()` only), and the whole group is overwritten with
`values.mode().iloc[0]` whenever any value exists
(movies_master_processor.py, lines 155-160). -/
def evcCell (t : List ERow) (k : String) (f : EField) (v : Option String) : Option String :=
  if !(evcVals t k f).isEmpty
  then some (pandasMode (evcVals t k f)) else v

/-- The per-group field overwrite of `ensure_vertical_coherence`; its
`coherent_fields` list has no `DESCRIPCION2`, which is left untouched. -/
def evcPass1 (t : List ERow) : List ERow :=
  t.map fun r =>
    match r.nombre_unico with
    | none => r
    | some k =>
      { nombre_unico := r.nombre_unico,
        categoria := evcCell t k EField.categoria r.categoria,
        descripcion := evcCell t k EField.descripcion r.descripcion,
        familia := evcCell t k EField.familia r.familia,
        actor_principal := evcCell t k EField.actor_principal r.actor_principal,
        director := evcCell t k EField.director r.director,
        duracion := evcCell t k EField.duracion r.duracion,
        categoria_cinepolis := evcCell t k EField.categoria_cinepolis r.categoria_cinepolis,
        descripcion2 := r.descripcion2 }

/-- Embeds `MoviesMasterProcessor.ensure_vertical_coherence`
(movies_master_processor.py, lines 143-168): the per-group overwrite of the
seven `coherent_fields`, then the unconditional horizontal re-assertion
`df['CATEGORIA_CINEPOLIS'] = df['CATEGORIA']`. -/
def ensure_vertical_coherence (t : List ERow) : List ERow :=
  (evcPass1 t).map fun r => { r with categoria_cinepolis := r.categoria }

/-- The specification of the elected value: a non-empty group value of
maximal multiplicity, smallest in code-point order among the tied ones. -/
def IsModalMin (vs : List String) (e : String) : Prop :=
  e ∈ vs ∧ (∀ v ∈ vs, vs.count v ≤ vs.count e) ∧
    (∀ v ∈ vs, vs.count v = vs.count e → pyStrLe e v = true)

/-- Written from the claim's words, for comparison only: the modal
non-empty value "with ties broken by first-occurrence order within the
group" — scan the collected values once, keeping the earliest value whose
multiplicity is not exceeded later. -/
def specModeFirstOccurrence (vs : List String) : String :=
  vs.foldl (fun best v => if vs.count v > vs.count best then v else best) (vs.headD "")

/-! ## The multi-source enrichment merge (claim C6)

`GOATMovieEnricher.comprehensive_search` (GOAT_enrichment.py, lines
271-308) queries `search_cinepolis`, `search_wikipedia`,
`search_imdb_via_google` in that order; each returns a five-field record of
strings (empty = no data).  The adapters perform network requests — an
external `PageFetcher` concern — so the merge core is embedded over the
list of their results in priority order; the md5 cache lookup around it is
likewise outside the merge rule the claim describes. -/
inductive SField where
  | categoria
  | descripcion
  | actor_principal
  | director
  | duracion
deriving DecidableEq

structure SourceInfo where
  categoria : String
  descripcion : String
  actor_principal : String
  director : String
  duracion : String
deriving DecidableEq

def getS (r : SourceInfo) : SField → String
  | SField.categoria => r.categoria
  | SField.descripcion => r.descripcion
  | SField.actor_principal => r.actor_principal
  | SField.director => r.director
  | SField.duracion => r.duracion

/-- The initial `combined_info` with every field empty. -/
def emptyInfo : SourceInfo := ⟨"", "", "", "", ""⟩

/-- One source visit: `if value and not combined_info[key]:
combined_info[key] = value` for each of the five keys. -/
def mergeStep (comb info : SourceInfo) : SourceInfo :=
  { categoria := if info.categoria ≠ "" ∧ comb.categoria = ""
      then info.categoria else comb.categoria,
    descripcion := if info.descripcion ≠ "" ∧ comb.descripcion = ""
      then info.descripcion else comb.descripcion,
    actor_principal := if info.actor_principal ≠ "" ∧ comb.actor_principal = ""
      then info.actor_principal else comb.actor_principal,
    director := if info.director ≠ "" ∧ comb.director = ""
      then info.director else comb.director,
    duracion := if info.duracion ≠ "" ∧ comb.duracion = ""
      then info.duracion else comb.duracion }

/-- Embeds `all(combined_info.values())`: every field non-empty (Python
truthiness of strings). -/
def allFull (c : SourceInfo) : Bool :=
  !(c.categoria == "") && !(c.descripcion == "") && !(c.actor_principal == "")
    && !(c.director == "") && !(c.duracion == "")

/-- The source loop: visit each source in order, fill still-empty fields,
and break early once every field is non-empty. -/
def mergeSources : SourceInfo → List SourceInfo → SourceInfo
  | comb, [] => comb
  | comb, i :: is =>
    if allFull (mergeStep comb i) then mergeStep comb i
    else mergeSources (mergeStep comb i) is

/-- The `comprehensive_search` merge core over the adapters' results in
priority order (Cinepolis, Wikipedia, IMDb). -/
def comprehensive_search (results : List SourceInfo) : SourceInfo :=
  mergeSources emptyInfo results

/-- Written from the spec's merge rule: the value of the earliest source
with a non-empty value for the field, or empty if none has one. -/
def firstNonEmpty : List String → String
  | [] => ""
  | s :: ss => if s ≠ "" then s else firstNonEmpty ss

/-! ## Movie-ID assignment for empty and absent keys (claim C9) -/
structure GRow where
  nombre_unico : Option String
  movie_id : Nat
deriving DecidableEq

/-- Pandas `Series.dropna().unique()`: distinct values in first-occurrence
order; `seen` accumulates the values already emitted. -/
def uniqueFirstAux (seen : List String) : List String → List String
  | [] => []
  | x :: xs =>
    if x ∈ seen then uniqueFirstAux seen xs
    else x :: uniqueFirstAux (x :: seen) xs

/-- See `uniqueFirstAux`. -/
def uniqueFirst (l : List String) : List String := uniqueFirstAux [] l

/-- Embeds `GOAT_enrichment.py`, lines 310-327 (`reassign_movie_ids`): rows with a
non-null key receive `index-in-unique_names + 1`; rows with a NaN key are
then filled, in row order, with `range(max_id, ...)` where
`max_id = len(unique_names) + 1`. -/
def reassignGo (uniq : List String) : Nat → List GRow → List GRow
  | _, [] => []
  | next, r :: rs =>
    match r.nombre_unico with
    | some n =>
      { nombre_unico := some n, movie_id := uniq.indexOf n + 1 } :: reassignGo uniq next rs
    | none =>
      { nombre_unico := none, movie_id := next } :: reassignGo uniq (next + 1) rs

/-- See `reassignGo`. -/
def reassign_movie_ids (t : List GRow) : List GRow :=
  reassignGo (uniqueFirst (t.filterMap GRow.nombre_unico))
    ((uniqueFirst (t.filterMap GRow.nombre_unico)).length + 1) t

/-- The pass-2 ID lookup of `MovieStandardizer.process_all_records`
(estandarizer.py, lines 522-526):
`unique_catalog.get(x, {}).get('MOVIE_ID', 0)` — a key absent from the
catalog (in particular the empty key, which pass 1 never inserts) yields
the sentinel `MOVIE_ID` 0. -/
def pass2_movie_id (catalog : List (String × Nat)) (key : String) : Nat :=
  match catalog.find? (fun p => p.1 == key) with
  | some p => p.2
  | none => 0

/-! ## The final validator (claim C10)

`validate_dataset` (final_check/validate_dataset.py, lines 10-92) runs
eight checks and returns `True` exactly when all of them pass (the score is
`passed/total*100` and the `True` branch requires `score == 100`).  The row
model carries the six columns the checks read by name plus the remaining
cells of the schema (`rest`); `ncols` models `len(df.columns)`.  The
completeness ratio `notna/(rows*cols)*100 > 95` is compared exactly
(`100*count > 95*total`), and Python `str()` of a NaN cell is the string
`nan`. -/
structure VRow where
  movie_id : Option Int
  movie_name : Option String
  idioma : Option String
  categoria : Option String
  categoria_cinepolis : Option String
  nombre_unico : Option String
  rest : List (Option String)
deriving DecidableEq

/-- Python `str()` of a cell: NaN prints as `nan`. -/
def pyStr : Option String → String
  | none => "nan"
  | some s => s

/-- Embeds `df['NOMBRE_UNICO'].nunique()`: distinct non-null values. -/
def nuniqueNombre (rows : List VRow) : Nat :=
  ((rows.filterMap VRow.nombre_unico).dedup).length

/-- Distinct non-null `MOVIE_ID`s of one `NOMBRE_UNICO` group. -/
def groupIds (rows : List VRow) (k : String) : List Int :=
  ((rows.filter (fun r => r.nombre_unico == some k)).filterMap VRow.movie_id).dedup

/-- Embeds `max()` of a series: `None` when empty (and then `max() == 1` is
false, as NaN compares false). -/
def maxNat : List Nat → Option Nat
  | [] => none
  | l => some (l.foldr max 0)

/-- Check 3: `df.groupby('NOMBRE_UNICO')['MOVIE_ID'].nunique().max() == 1`
(groupby drops NaN keys). -/
def mappingCheck (rows : List VRow) : Bool :=
  maxNat (((rows.filterMap VRow.nombre_unico).dedup).map
    (fun k => (groupIds rows k).length)) == some 1

/-- Number of tokens of Python `str.split()`: the count of maximal
non-whitespace runs; the flag tracks being inside a run. -/
def tokenCountGo : Bool → List Char → Nat
  | _, [] => 0
  | inWord, c :: cs =>
    if isWsChar c then tokenCountGo false cs
    else if inWord then tokenCountGo true cs
    else 1 + tokenCountGo true cs

/-- Embeds `len(str(x).split())`. -/
def pyTokenCount (s : String) : Nat := tokenCountGo false s.data

/-- Non-null cells of one row (`df.notna()` contribution). -/
def notnaCount (r : VRow) : Nat :=
  (if r.movie_id.isSome then 1 else 0) + (if r.movie_name.isSome then 1 else 0)
    + (if r.idioma.isSome then 1 else 0) + (if r.categoria.isSome then 1 else 0)
    + (if r.categoria_cinepolis.isSome then 1 else 0)
    + (if r.nombre_unico.isSome then 1 else 0) + r.rest.countP Option.isSome

/-- Embeds `df.notna().sum().sum()`. -/
def notnaTotal (rows : List VRow) : Nat :=
  rows.foldl (fun a r => a + notnaCount r) 0

/-- Embeds `a.endswith(b)` on the character lists. -/
def endsWithStr (s p : String) : Bool := p.data.isSuffixOf s.data

/-- Check 8, one row of the `IDIOMA` coherence loop (validate_dataset.py,
lines 58-71): the three `elif` guards test mutually exclusive name
suffixes, so the loop adds no error for this row exactly when this
function is true. -/
def idiomaCheck (r : VRow) : Bool :=
  if endsWithStr (String.mk (pyUpper (pyStr r.movie_name).data)) " ESP" then
    pyStr r.idioma == "ESP"
  else if endsWithStr (String.mk (pyUpper (pyStr r.movie_name).data)) " SUB" then
    pyStr r.idioma == "SUB"
  else if endsWithStr (String.mk (pyUpper (pyStr r.movie_name).data)) " DOB"
      || endsWithStr (String.mk (pyUpper (pyStr r.movie_name).data)) " DUB" then
    pyStr r.idioma == "DOB"
  else true

/-- Embeds `validate_dataset` (validate_dataset.py): the conjunction of the eight
checks — structure 2372 x 16, 885 unique movies, 1:1 mapping, no duplicate
rows, `CATEGORIA == CATEGORIA_CINEPOLIS` on every row (false on NaN, as in
pandas), single-token categories, completeness above 95 percent, and the
`IDIOMA` suffix coherence.  It returns `True` exactly when the score is
100, i.e. when every check passes. -/
def validate_dataset (ncols : Nat) (rows : List VRow) : Bool :=
  (rows.length == 2372 && ncols == 16)
    && (nuniqueNombre rows == 885)
    && mappingCheck rows
    && (rows.dedup.length == rows.length)
    && rows.all (fun r =>
        match r.categoria, r.categoria_cinepolis with
        | some a, some b => a == b
        | _, _ => false)
    && ((rows.map VRow.categoria).dedup).all (fun c => pyTokenCount (pyStr c) == 1)
    && decide (95 * (rows.length * ncols) < 100 * notnaTotal rows)
    && rows.all idiomaCheck

/-! ## Idempotence of `strip()` -/
theorem dropWhile_self_dropWhile (p : Char → Bool) (l : List Char) :
    List.dropWhile p (List.dropWhile p l) = List.dropWhile p l := by
  induction l with
  | nil => rfl
  | cons c t ih =>
    by_cases h : p c
    · simp [List.dropWhile, h, ih]
    · simp [List.dropWhile, h]

theorem head?_dropWhile_false (p : Char → Bool) (l : List Char) {c : Char}
    (h : (l.dropWhile p).head? = some c) : p c = false := by
  induction l with
  | nil => simp [List.dropWhile] at h
  | cons a t ih =>
    by_cases ha : p a
    · rw [List.dropWhile_cons_of_pos ha] at h
      exact ih h
    · rw [List.dropWhile_cons_of_neg ha] at h
      simp at h
      rw [← h]
      simpa using ha

theorem dropWhile_eq_self_of_head? (p : Char → Bool) (l : List Char)
    (h : ∀ c, l.head? = some c → p c = false) : l.dropWhile p = l := by
  cases l with
  | nil => rfl
  | cons a t =>
    have := h a rfl
    simp [List.dropWhile, this]

theorem getLast?_dropWhile_of_ne (p : Char → Bool) (l : List Char)
    (h : l.dropWhile p ≠ []) : (l.dropWhile p).getLast? = l.getLast? := by
  induction l with
  | nil => simp [List.dropWhile] at h
  | cons a t ih =>
    by_cases ha : p a
    · rw [List.dropWhile_cons_of_pos ha] at h ⊢
      have ht : t ≠ [] := by
        intro he
        rw [he] at h
        simp [List.dropWhile] at h
      cases t with
      | nil => exact absurd rfl ht
      | cons b u => rw [List.getLast?_cons_cons]; exact ih h
    · rw [List.dropWhile_cons_of_neg ha]

theorem stripL_idem (l : List Char) : stripL (stripL l) = stripL l := by
  unfold stripL
  have h1 : (((l.dropWhile isWsChar).reverse.dropWhile isWsChar).reverse).dropWhile isWsChar
      = ((l.dropWhile isWsChar).reverse.dropWhile isWsChar).reverse := by
    apply dropWhile_eq_self_of_head?
    intro c hc
    rw [List.head?_reverse] at hc
    have hne : (l.dropWhile isWsChar).reverse.dropWhile isWsChar ≠ [] := by
      intro he
      rw [he] at hc
      simp at hc
    rw [getLast?_dropWhile_of_ne _ _ hne, List.getLast?_reverse] at hc
    exact head?_dropWhile_false isWsChar l hc
  rw [h1, List.reverse_reverse, dropWhile_self_dropWhile]

/-! ## Character-class invariants of the normalizer stages

These lemmas characterise the output of `uniqueCore`: it is uppercase,
contains only word characters and single spaces, and is stripped.  They
drive the amended idempotence claim C3. -/
theorem charOfNat_toNat : ∀ n < 128, (Char.ofNat n).toNat = n := by decide

theorem pyUpperChar_idem (c : Char) : pyUpperChar (pyUpperChar c) = pyUpperChar c := by
  unfold pyUpperChar
  by_cases h : 97 ≤ c.toNat ∧ c.toNat ≤ 122
  · rw [if_pos h, if_neg]
    rw [charOfNat_toNat (c.toNat - 32) (by omega)]
    omega
  · rw [if_neg h, if_neg h]

theorem noAdj_cons_of {a : Char} {l : List Char}
    (h : ∀ c, l.head? = some c → ¬(isWsChar a = true ∧ isWsChar c = true))
    (ht : NoAdj l) : NoAdj (a :: l) := by
  cases ht with
  | nil => exact NoAdj.single a
  | single c => exact NoAdj.cons2 a c [] (h c rfl) (NoAdj.single c)
  | cons2 b c t hbc ht2 => exact NoAdj.cons2 a b (c :: t) (h b rfl) (NoAdj.cons2 b c t hbc ht2)

theorem noAdj_tail {a : Char} {l : List Char} (h : NoAdj (a :: l)) : NoAdj l := by
  cases h with
  | single => exact NoAdj.nil
  | cons2 a b t hab ht => exact ht

theorem noAdj_head_pair {a b : Char} {t : List Char} (h : NoAdj (a :: b :: t)) :
    ¬(isWsChar a = true ∧ isWsChar b = true) := by
  cases h
  assumption

theorem upperFixed_of_subset {l m : List Char} (h : UpperFixed l)
    (hm : ∀ c ∈ m, c ∈ l ∨ c = ' ') : UpperFixed m := by
  intro c hc
  rcases hm c hc with h1 | rfl
  · exact h c h1
  · decide

theorem wordWsOnly_of_subset {l m : List Char} (h : WordWsOnly l)
    (hm : ∀ c ∈ m, c ∈ l ∨ c = ' ') : WordWsOnly m := by
  intro c hc
  rcases hm c hc with h1 | rfl
  · exact h c h1
  · decide

theorem allWsSpace_of_subset {l m : List Char} (h : AllWsSpace l)
    (hm : ∀ c ∈ m, c ∈ l ∨ c = ' ') : AllWsSpace m := by
  intro c hc hw
  rcases hm c hc with h1 | rfl
  · exact h c h1 hw
  · rfl

theorem upperFixed_pyUpper (l : List Char) : UpperFixed (pyUpper l) := by
  intro c hc
  obtain ⟨a, _, rfl⟩ := List.mem_map.1 hc
  exact pyUpperChar_idem a

theorem pyUpper_eq_self {l : List Char} (h : UpperFixed l) : pyUpper l = l := by
  induction l with
  | nil => rfl
  | cons a t ih =>
    have h1 := h a (List.mem_cons_self a t)
    have h2 : UpperFixed t := fun c hc => h c (List.mem_cons_of_mem a hc)
    show pyUpperChar a :: pyUpper t = a :: t
    rw [h1, ih h2]

theorem wordWsOnly_punctToSpace (l : List Char) : WordWsOnly (punctToSpace l) := by
  intro c hc
  obtain ⟨a, _, rfl⟩ := List.mem_map.1 hc
  by_cases h : (isWordChar a || isWsChar a) = true
  · rw [if_pos h]; exact h
  · rw [if_neg h]; decide

theorem punctToSpace_eq_self {l : List Char} (h : WordWsOnly l) : punctToSpace l = l := by
  induction l with
  | nil => rfl
  | cons a t ih =>
    have h1 := h a (List.mem_cons_self a t)
    have h2 : WordWsOnly t := fun c hc => h c (List.mem_cons_of_mem a hc)
    show (if (isWordChar a || isWsChar a) = true then a else ' ') :: punctToSpace t = a :: t
    rw [if_pos h1, ih h2]

/-! ## Membership lemmas: the stripping stages only remove characters
(or introduce spaces) -/
theorem dropCI_suffix {pat l rest : List Char} (h : dropCI pat l = some rest) :
    rest <:+ l := by
  induction pat generalizing l with
  | nil =>
    cases l <;> · simp [dropCI] at h; rw [← h]
  | cons p ps ih =>
    cases l with
    | nil => simp [dropCI] at h
    | cons c cs =>
      rw [dropCI] at h
      by_cases hc : (pyUpperChar c == pyUpperChar p) = true
      · rw [if_pos hc] at h
        exact (ih h).trans (List.suffix_cons c cs)
      · rw [if_neg hc] at h
        exact absurd h (by simp)

theorem dropExact_suffix {pat l rest : List Char} (h : dropExact pat l = some rest) :
    rest <:+ l := by
  induction pat generalizing l with
  | nil =>
    cases l <;> · simp [dropExact] at h; rw [← h]
  | cons p ps ih =>
    cases l with
    | nil => simp [dropExact] at h
    | cons c cs =>
      rw [dropExact] at h
      by_cases hc : (c == p) = true
      · rw [if_pos hc] at h
        exact (ih h).trans (List.suffix_cons c cs)
      · rw [if_neg hc] at h
        exact absurd h (by simp)

theorem stripEndTok_mem {tok l : List Char} {c : Char} (h : c ∈ stripEndTok tok l) :
    c ∈ l := by
  unfold stripEndTok at h
  split at h
  · exact h
  · rename_i rest hm
    split at h
    · rw [List.mem_reverse] at h
      have h1 : c ∈ rest := (List.dropWhile_sublist isWsChar).mem h
      have h2 : c ∈ l.reverse := (dropCI_suffix hm).sublist.mem h1
      exact List.mem_reverse.1 h2
    · exact h

theorem stripFromTokGo_mem {tok l : List Char} {c : Char}
    (h : c ∈ stripFromTokGo tok l) : c ∈ l := by
  induction l with
  | nil => simp only [stripFromTokGo] at h; exact h
  | cons a t ih =>
    rw [stripFromTokGo] at h
    by_cases ha : isWsChar a = true
    · rw [if_pos ha] at h
      by_cases hs : startsWithCI tok (t.dropWhile isWsChar) = true
      · rw [if_pos hs] at h; simp at h
      · rw [if_neg hs] at h
        rcases List.mem_cons.1 h with rfl | h1
        · exact List.mem_cons_self _ _
        · exact List.mem_cons_of_mem _ (ih h1)
    · rw [if_neg ha] at h
      rcases List.mem_cons.1 h with rfl | h1
      · exact List.mem_cons_self _ _
      · exact List.mem_cons_of_mem _ (ih h1)

theorem stripFromTok_mem {tok l : List Char} {c : Char}
    (h : c ∈ stripFromTok tok l) : c ∈ l := stripFromTokGo_mem h

theorem langPass_mem {l : List Char} {c : Char} (h : c ∈ langPass l) : c ∈ l := by
  unfold langPass at h
  exact stripEndTok_mem (stripEndTok_mem (stripEndTok_mem (stripEndTok_mem
    (stripEndTok_mem h))))

theorem formatPass_mem {l : List Char} {c : Char} (h : c ∈ formatPass l) : c ∈ l := by
  unfold formatPass at h
  exact stripFromTok_mem (stripFromTok_mem (stripFromTok_mem (stripFromTok_mem
    (stripFromTok_mem (stripFromTok_mem (stripFromTok_mem h))))))

theorem allPatterns_mem {l : List Char} {c : Char} (h : c ∈ allPatterns l) : c ∈ l :=
  langPass_mem (langPass_mem (formatPass_mem h))

theorem punctToSpace_mem {l : List Char} {c : Char} (h : c ∈ punctToSpace l) :
    c ∈ l ∨ c = ' ' := by
  obtain ⟨a, ha, rfl⟩ := List.mem_map.1 h
  by_cases hc : (isWordChar a || isWsChar a) = true
  · rw [if_pos hc]; exact Or.inl ha
  · rw [if_neg hc]; exact Or.inr rfl

theorem collapseGo_mem {l : List Char} {b : Bool} {c : Char}
    (h : c ∈ collapseGo b l) : c ∈ l ∨ c = ' ' := by
  induction l generalizing b with
  | nil => cases b <;> simp only [collapseGo] at h <;> exact Or.inl h
  | cons a t ih =>
    cases b with
    | true =>
      rw [collapseGo] at h
      by_cases ha : isWsChar a = true
      · rw [if_pos ha] at h
        rcases ih h with h1 | h1
        · exact Or.inl (List.mem_cons_of_mem _ h1)
        · exact Or.inr h1
      · rw [if_neg ha] at h
        rcases List.mem_cons.1 h with rfl | h1
        · exact Or.inl (List.mem_cons_self _ _)
        · rcases ih h1 with h2 | h2
          · exact Or.inl (List.mem_cons_of_mem _ h2)
          · exact Or.inr h2
    | false =>
      rw [collapseGo] at h
      by_cases ha : isWsChar a = true
      · rw [if_pos ha] at h
        rcases List.mem_cons.1 h with rfl | h1
        · exact Or.inr rfl
        · rcases ih h1 with h2 | h2
          · exact Or.inl (List.mem_cons_of_mem _ h2)
          · exact Or.inr h2
      · rw [if_neg ha] at h
        rcases List.mem_cons.1 h with rfl | h1
        · exact Or.inl (List.mem_cons_self _ _)
        · rcases ih h1 with h2 | h2
          · exact Or.inl (List.mem_cons_of_mem _ h2)
          · exact Or.inr h2

theorem articleStripGo_suffix (arts : List (List Char)) (l : List Char) :
    articleStripGo arts l <:+ l := by
  induction arts with
  | nil => exact List.suffix_refl l
  | cons a as ih =>
    rw [articleStripGo]
    split
    · rename_i r hm
      unfold tryArticle at hm
      split at hm
      · exact absurd hm (by simp)
      · rename_i rest he
        split at hm
        · injection hm with h2
          rw [← h2]
          exact (List.dropWhile_suffix isWsChar).trans (dropExact_suffix he)
        · exact absurd hm (by simp)
    · exact ih

theorem articleStrip_suffix (l : List Char) : articleStrip l <:+ l :=
  articleStripGo_suffix _ l

theorem stripL_mem {l : List Char} {c : Char} (h : c ∈ stripL l) : c ∈ l := by
  unfold stripL at h
  rw [List.mem_reverse] at h
  have h1 := (List.dropWhile_sublist isWsChar).mem h
  rw [List.mem_reverse] at h1
  exact (List.dropWhile_sublist isWsChar).mem h1

/-! ## Structural properties of whitespace collapsing -/
theorem allWsSpace_collapseGo : ∀ {b : Bool} {l : List Char}, AllWsSpace (collapseGo b l) := by
  intro b l
  induction l generalizing b with
  | nil => cases b <;> · intro c hc; simp [collapseGo] at hc
  | cons a t ih =>
    cases b with
    | true =>
      rw [collapseGo]
      by_cases ha : isWsChar a = true
      · rw [if_pos ha]; exact ih
      · rw [if_neg ha]
        intro c hc hw
        rcases List.mem_cons.1 hc with rfl | h1
        · exact absurd hw ha
        · exact ih c h1 hw
    | false =>
      rw [collapseGo]
      by_cases ha : isWsChar a = true
      · rw [if_pos ha]
        intro c hc hw
        rcases List.mem_cons.1 hc with rfl | h1
        · rfl
        · exact ih c h1 hw
      · rw [if_neg ha]
        intro c hc hw
        rcases List.mem_cons.1 hc with rfl | h1
        · exact absurd hw ha
        · exact ih c h1 hw

theorem collapseGo_true_headNotWs : ∀ (l : List Char) (c : Char),
    (collapseGo true l).head? = some c → isWsChar c = false := by
  intro l
  induction l with
  | nil => intro c hc; simp [collapseGo] at hc
  | cons a t ih =>
    intro c hc
    rw [collapseGo] at hc
    by_cases ha : isWsChar a = true
    · rw [if_pos ha] at hc; exact ih c hc
    · rw [if_neg ha] at hc
      simp at hc
      rw [← hc]
      simpa using ha

theorem noAdj_collapseGo : ∀ {b : Bool} {l : List Char}, NoAdj (collapseGo b l) := by
  intro b l
  induction l generalizing b with
  | nil => cases b <;> · rw [collapseGo]; exact NoAdj.nil
  | cons a t ih =>
    cases b with
    | true =>
      rw [collapseGo]
      by_cases ha : isWsChar a = true
      · rw [if_pos ha]; exact ih
      · rw [if_neg ha]
        exact noAdj_cons_of (fun y _ hcon => absurd hcon.1 ha) ih
    | false =>
      rw [collapseGo]
      by_cases ha : isWsChar a = true
      · rw [if_pos ha]
        apply noAdj_cons_of ?_ ih
        intro y hy hcon
        exact absurd hcon.2 (by simpa using collapseGo_true_headNotWs t y hy)
      · rw [if_neg ha]
        exact noAdj_cons_of (fun y _ hcon => absurd hcon.1 ha) ih

theorem collapseGo_eq_self : ∀ {l : List Char} {b : Bool}, AllWsSpace l → NoAdj l →
    (b = true → ∀ c, l.head? = some c → isWsChar c = false) → collapseGo b l = l := by
  intro l
  induction l with
  | nil => intro b _ _ _; cases b <;> rfl
  | cons a t ih =>
    intro b hAll hAdj hHead
    have hAllT : AllWsSpace t := fun c hc => hAll c (List.mem_cons_of_mem a hc)
    have hAdjT : NoAdj t := noAdj_tail hAdj
    by_cases ha : isWsChar a = true
    · cases b with
      | true => exact absurd (hHead rfl a rfl) (by simpa using ha)
      | false =>
        rw [collapseGo, if_pos ha, hAll a (List.mem_cons_self a t) ha]
        have hHeadT : ∀ c, t.head? = some c → isWsChar c = false := by
          intro c hc
          cases t with
          | nil => simp at hc
          | cons x t2 =>
            simp at hc
            have hp := noAdj_head_pair hAdj
            by_contra hcw
            rw [hc] at hp
            exact hp ⟨ha, by simpa using hcw⟩
        rw [ih hAllT hAdjT (fun _ => hHeadT)]
    · cases b with
      | true =>
        rw [collapseGo, if_neg ha, ih hAllT hAdjT (fun hb => absurd hb Bool.false_ne_true)]
      | false =>
        rw [collapseGo, if_neg ha, ih hAllT hAdjT (fun hb => absurd hb Bool.false_ne_true)]

theorem noAdj_suffix {l m : List Char} (hm : m <:+ l) (h : NoAdj l) : NoAdj m := by
  obtain ⟨u, rfl⟩ := hm
  induction u with
  | nil => simpa using h
  | cons x xs ih => exact ih (noAdj_tail h)

theorem noAdj_append_one {c : Char} : ∀ {l : List Char}, NoAdj l →
    (∀ x, l.getLast? = some x → ¬(isWsChar x = true ∧ isWsChar c = true)) →
    NoAdj (l ++ [c]) := by
  intro l h
  induction h with
  | nil => intro _; exact NoAdj.single c
  | single a => intro hl; exact NoAdj.cons2 a c [] (hl a rfl) (NoAdj.single c)
  | cons2 a b t hab ht ih =>
    intro hl
    exact NoAdj.cons2 a b (t ++ [c]) hab
      (ih (fun x hx => hl x (by rw [List.getLast?_cons_cons]; exact hx)))

theorem noAdj_reverse : ∀ {l : List Char}, NoAdj l → NoAdj l.reverse := by
  intro l h
  induction l with
  | nil => exact NoAdj.nil
  | cons a t ih =>
    rw [List.reverse_cons]
    apply noAdj_append_one (ih (noAdj_tail h))
    intro x hx
    rw [List.getLast?_reverse] at hx
    cases t with
    | nil => simp at hx
    | cons b t2 =>
      simp at hx
      have hp := noAdj_head_pair h
      rw [hx] at hp
      exact fun hcon => hp ⟨hcon.2, hcon.1⟩

theorem noAdj_stripL {l : List Char} (h : NoAdj l) : NoAdj (stripL l) := by
  unfold stripL
  exact noAdj_reverse (noAdj_suffix (List.dropWhile_suffix _)
    (noAdj_reverse (noAdj_suffix (List.dropWhile_suffix _) h)))

/-- Restates `noAdj_collapseGo` via `collapseWs` on a variable list, proved once
here so that later uses at large normalizer terms are purely syntactic. -/
theorem noAdj_collapseWs (l : List Char) : NoAdj (collapseWs l) := noAdj_collapseGo

theorem collapseWs_eq_self {l : List Char} (h1 : AllWsSpace l) (h2 : NoAdj l) :
    collapseWs l = l :=
  collapseGo_eq_self h1 h2 (fun hb => absurd hb Bool.false_ne_true)

/-! ## Claims C1, C3, C8 about the normalizer -/
/-- Claim C1, counterexample: the raw names `"DUNE SUB."` and `"DUNE SUB"`
differ only by one trailing punctuation character, yet their canonical keys
differ: the period blocks the end-anchored `\s+SUB$` pattern, and the
punctuation-to-space step runs only after the pattern passes, so the first
name keeps its `SUB` token (key `"DUNE SUB"`) while the second loses it
(key `"DUNE"`). -/
theorem canonical_key_punct_counterexample :
    canonical_key ("DUNE SUB" ++ ".") ≠ canonical_key "DUNE SUB" := by decide

/-- Claim C1, amended: the canonical key does identify names that differ by
a single trailing format or language marker, by nested trailing markers, by
a single leading article on an article-free base, or by simple trailing
punctuation on a marker-free title — verified here on the spec's
representative example family; the universal form of the claim fails when
punctuation follows a marker token (see the counterexample). -/
theorem canonical_key_marker_examples :
    canonical_key "DUNE 4DX" = canonical_key "DUNE" ∧
    canonical_key "DUNE SUB" = canonical_key "DUNE" ∧
    canonical_key "DUNE ESP" = canonical_key "DUNE" ∧
    canonical_key "DUNE 4DX SUB" = canonical_key "DUNE" ∧
    canonical_key "DUNE 3D DOB" = canonical_key "DUNE" ∧
    canonical_key "THE DUNE" = canonical_key "DUNE" ∧
    canonical_key "DUNE!" = canonical_key "DUNE" := by decide

/-- Claim C3, counterexample: `generate_unique_name` is not idempotent.
On `"LA LA LAND"` the article pattern strips one leading `LA`, giving the
key `"LA LAND"`; applying the function again strips the next `LA` and
yields `"LAND"`. -/
theorem generate_unique_name_not_idempotent :
    generate_unique_name (generate_unique_name "LA LA LAND")
      ≠ generate_unique_name "LA LA LAND" := by decide

/-- Claim C3, amended: `generate_unique_name` is idempotent on every string
whose canonical image is a fixed point of the marker-pattern pass and of the
leading-article removal.  The remaining stages (uppercasing, punctuation
replacement, whitespace collapsing, stripping) are always fixed on a
canonical image, which is proved here unconditionally; only a leftover
leading article or a marker suffix uncovered by punctuation removal can make
a second application differ (see the counterexample). -/
theorem generate_unique_name_idem_of_stripped (s : String)
    (h1 : allPatterns (generate_unique_name s).data = (generate_unique_name s).data)
    (h2 : articleStrip (generate_unique_name s).data = (generate_unique_name s).data) :
    generate_unique_name (generate_unique_name s) = generate_unique_name s := by
  by_cases h0 : generate_unique_name s = ""
  · rw [h0]
    simp [generate_unique_name]
  · have hs : s ≠ "" := by
      intro he
      rw [he] at h0
      exact h0 (by simp [generate_unique_name])
    have hd : (generate_unique_name s).data = uniqueCore s.data := by
      rw [generate_unique_name, if_neg hs]
    -- character-class facts about the canonical image `uniqueCore s.data`
    have hsubA : ∀ c ∈ uniqueCore s.data,
        c ∈ collapseWs (punctToSpace (allPatterns (pyUpper s.data))) :=
      fun c hc => (articleStrip_suffix _).sublist.mem (stripL_mem hc)
    have hsub : ∀ c ∈ uniqueCore s.data,
        c ∈ punctToSpace (allPatterns (pyUpper s.data)) ∨ c = ' ' :=
      fun c hc => collapseGo_mem (hsubA c hc)
    have hUF : UpperFixed (uniqueCore s.data) := by
      apply upperFixed_of_subset (l := pyUpper s.data) (upperFixed_pyUpper s.data)
      intro c hc
      rcases hsub c hc with hp | hsp
      · rcases punctToSpace_mem hp with hq | hsp
        · exact Or.inl (allPatterns_mem hq)
        · exact Or.inr hsp
      · exact Or.inr hsp
    have hWW : WordWsOnly (uniqueCore s.data) :=
      wordWsOnly_of_subset (wordWsOnly_punctToSpace (allPatterns (pyUpper s.data))) hsub
    have hAll : AllWsSpace (uniqueCore s.data) :=
      allWsSpace_of_subset (l := collapseWs (punctToSpace (allPatterns (pyUpper s.data))))
        allWsSpace_collapseGo (fun c hc => Or.inl (hsubA c hc))
    have hAdjC : NoAdj (collapseWs (punctToSpace (allPatterns (pyUpper s.data)))) :=
      noAdj_collapseWs (punctToSpace (allPatterns (pyUpper s.data)))
    have hAdjA : NoAdj (articleStrip (collapseWs (punctToSpace (allPatterns (pyUpper s.data))))) :=
      noAdj_suffix
        (articleStrip_suffix (collapseWs (punctToSpace (allPatterns (pyUpper s.data))))) hAdjC
    have hAdj : NoAdj (uniqueCore s.data) := noAdj_stripL hAdjA
    -- the six stages fix the canonical image
    have hU : pyUpper (uniqueCore s.data) = uniqueCore s.data := pyUpper_eq_self hUF
    have hA1 : allPatterns (uniqueCore s.data) = uniqueCore s.data :=
      (congrArg (fun l => allPatterns l = l) hd).mp h1
    have hP : punctToSpace (uniqueCore s.data) = uniqueCore s.data := punctToSpace_eq_self hWW
    have hC : collapseWs (uniqueCore s.data) = uniqueCore s.data :=
      collapseWs_eq_self hAll hAdj
    have hA2 : articleStrip (uniqueCore s.data) = uniqueCore s.data :=
      (congrArg (fun l => articleStrip l = l) hd).mp h2
    have hS : stripL (uniqueCore s.data) = uniqueCore s.data :=
      stripL_idem (articleStrip (collapseWs (punctToSpace (allPatterns (pyUpper s.data)))))
    -- assemble: `uniqueCore` is the identity on the canonical image
    have key : uniqueCore (uniqueCore s.data) = uniqueCore s.data :=
      ((congrArg stripL
        ((congrArg articleStrip
          ((congrArg collapseWs
            ((congrArg punctToSpace
              ((congrArg allPatterns hU).trans hA1)).trans hP)).trans hC)).trans hA2)).trans hS)
    have final1 : generate_unique_name (generate_unique_name s)
        = String.mk (uniqueCore (generate_unique_name s).data) := if_neg h0
    have final2 : String.mk (uniqueCore (generate_unique_name s).data)
        = String.mk (uniqueCore (uniqueCore s.data)) :=
      congrArg (fun l => String.mk (uniqueCore l)) hd
    have final3 : String.mk (uniqueCore (uniqueCore s.data))
        = String.mk (uniqueCore s.data) := congrArg String.mk key
    have final4 : String.mk (uniqueCore s.data) = generate_unique_name s :=
      (congrArg String.mk hd.symm).trans rfl
    exact final1.trans (final2.trans (final3.trans final4))

/-- Witness for the amended claim C3 at the concrete input `"DUNE"`. -/
theorem generate_unique_name_idem_witness :
    allPatterns (generate_unique_name "DUNE").data = (generate_unique_name "DUNE").data ∧
    articleStrip (generate_unique_name "DUNE").data = (generate_unique_name "DUNE").data ∧
    generate_unique_name (generate_unique_name "DUNE") = generate_unique_name "DUNE" :=
  ⟨by decide, by decide,
    generate_unique_name_idem_of_stripped "DUNE" (by decide) (by decide)⟩

/-- Claim C8, counterexample: `detect_family` is not idempotent.  On
`"MOVIE 2: SUBTITLE"` the colon stage yields `"MOVIE 2"`; a second
application then strips the now-trailing sequel number and yields
`"MOVIE"`. -/
theorem detect_family_not_idempotent :
    detect_family (detect_family "MOVIE 2: SUBTITLE")
      ≠ detect_family "MOVIE 2: SUBTITLE" := by decide

/-- Claim C8, amended: `detect_family` is idempotent exactly on those inputs
whose family key is a fixed point of the four stripping stages — i.e. when
stripping the already-stripped family key finds no further trailing number,
Roman numeral, colon subtitle or dash subtitle.  (In general a second
application can strip further, see the counterexample.) -/
theorem detect_family_idem_of_fixed (s : String)
    (h : famStages (detect_family s).data = (detect_family s).data) :
    detect_family (detect_family s) = detect_family s := by
  by_cases h0 : detect_family s = ""
  · rw [h0]
    simp [detect_family]
  · have hs : s ≠ "" := by
      intro he
      rw [he] at h0
      exact h0 (by simp [detect_family])
    have hd : (detect_family s).data = stripL (famStages s.data) := by
      rw [detect_family, if_neg hs]
    conv_lhs => rw [detect_family]
    rw [if_neg h0, h, hd, stripL_idem, ← hd]

/-- Witness for the amended claim C8 at the concrete input `"MOVIE"`. -/
theorem detect_family_idem_witness :
    famStages (detect_family "MOVIE").data = (detect_family "MOVIE").data ∧
      detect_family (detect_family "MOVIE") = detect_family "MOVIE" :=
  ⟨by decide, detect_family_idem_of_fixed "MOVIE" (by decide)⟩

theorem char_eq_of_toNat_eq {a b : Char} (h : a.toNat = b.toNat) : a = b :=
  Char.ext (UInt32.eq_of_val_eq (Fin.ext h))

theorem charsLe_cons_iff {a b : Char} {as bs : List Char} :
    charsLe (a :: as) (b :: bs) = true
      ↔ (a.toNat < b.toNat ∨ (a.toNat = b.toNat ∧ charsLe as bs = true)) := by
  simp only [charsLe]
  by_cases h1 : a.toNat < b.toNat
  · simp [h1]
  · by_cases h2 : b.toNat < a.toNat
    · simp [h1, h2]
      omega
    · have h3 : a.toNat = b.toNat := by omega
      simp [h1, h2, h3]

theorem charsLt_cons_iff {a b : Char} {as bs : List Char} :
    charsLt (a :: as) (b :: bs) = true
      ↔ (a.toNat < b.toNat ∨ (a.toNat = b.toNat ∧ charsLt as bs = true)) := by
  simp only [charsLt]
  by_cases h1 : a.toNat < b.toNat
  · simp [h1]
  · by_cases h2 : b.toNat < a.toNat
    · simp [h1, h2]
      omega
    · have h3 : a.toNat = b.toNat := by omega
      simp [h1, h2, h3]

theorem charsLt_irrefl : ∀ x : List Char, charsLt x x = false := by
  intro x
  induction x with
  | nil => rfl
  | cons a as ih => simp [charsLt, ih]

theorem charsLt_asymm : ∀ x y : List Char, charsLt x y = true → ¬ charsLt y x = true := by
  intro x
  induction x with
  | nil =>
    intro y h hc
    cases y with
    | nil => simp [charsLt] at h
    | cons b bs => simp [charsLt] at hc
  | cons a as ih =>
    intro y h hc
    cases y with
    | nil => simp [charsLt] at h
    | cons b bs =>
      rw [charsLt_cons_iff] at h hc
      rcases h with h1 | ⟨h1, h1t⟩
      · rcases hc with h2 | ⟨h2, _⟩
        · omega
        · omega
      · rcases hc with h2 | ⟨h2, h2t⟩
        · omega
        · exact ih bs h1t h2t

theorem charsLt_of_le_of_ne : ∀ x y : List Char,
    charsLe x y = true → x ≠ y → charsLt x y = true := by
  intro x
  induction x with
  | nil =>
    intro y _ hne
    cases y with
    | nil => exact absurd rfl hne
    | cons b bs => rfl
  | cons a as ih =>
    intro y hle hne
    cases y with
    | nil => simp [charsLe] at hle
    | cons b bs =>
      rw [charsLe_cons_iff] at hle
      rw [charsLt_cons_iff]
      rcases hle with h1 | ⟨h1, h1t⟩
      · exact Or.inl h1
      · refine Or.inr ⟨h1, ih bs h1t ?_⟩
        intro he
        exact hne (by rw [char_eq_of_toNat_eq h1, he])

theorem pyStrLt_asymm {a b : String} (h : pyStrLt a b = true) : ¬ pyStrLt b a = true :=
  charsLt_asymm _ _ h

theorem pyStrLt_of_le_of_ne {a b : String} (hle : pyStrLe a b = true) (hne : a ≠ b) :
    pyStrLt a b = true :=
  charsLt_of_le_of_ne _ _ hle (fun h => hne (String.ext h))

theorem sorted_lt_sortedUniqueNames (t : List MRow) :
    List.Sorted (fun a b => pyStrLt a b = true) (sortedUniqueNames t) := by
  have hs : List.Sorted (fun a b => pyStrLe a b = true) (sortedUniqueNames t) :=
    List.sorted_insertionSort _ _
  have hn : (sortedUniqueNames t).Nodup :=
    ((List.perm_insertionSort _ _).nodup_iff).2 (List.nodup_dedup _)
  exact (List.Pairwise.and hs hn).imp (fun h => pyStrLt_of_le_of_ne h.1 h.2)

theorem indexOf_eq_countP_lt {l : List String}
    (hl : List.Sorted (fun a b => pyStrLt a b = true) l) :
    ∀ {a : String}, a ∈ l → List.indexOf a l = l.countP (fun m => pyStrLt m a) := by
  induction l with
  | nil => intro a ha; simp at ha
  | cons b t ih =>
    intro a ha
    have hbt : ∀ x ∈ t, pyStrLt b x = true := (List.sorted_cons.1 hl).1
    by_cases hab : a = b
    · subst hab
      rw [List.indexOf_cons_self, List.countP_cons]
      have h0 : t.countP (fun m => pyStrLt m a) = 0 := by
        rw [List.countP_eq_zero]
        intro x hx
        simp [pyStrLt_asymm (hbt x hx)]
      rw [h0]
      simp [charsLt_irrefl, pyStrLt]
    · have hat : a ∈ t := by
        rcases List.mem_cons.1 ha with h | h
        · exact absurd h hab
        · exact h
      rw [List.indexOf_cons_ne t (fun h => hab h.symm), List.countP_cons]
      have hba : pyStrLt b a = true := hbt a hat
      rw [ih (List.sorted_cons.1 hl).2 hat]
      simp [hba]

theorem mem_sortedUniqueNames {t : List MRow} {r : MRow} (hr : r ∈ t) :
    r.nombre ∈ sortedUniqueNames t :=
  ((List.perm_insertionSort _ _).mem_iff).2
    (List.mem_dedup.2 (List.mem_map.2 ⟨r, hr, rfl⟩))

theorem perm_sortedUniqueNames (t : List MRow) :
    (sortedUniqueNames t).Perm (t.map MRow.nombre).dedup :=
  List.perm_insertionSort _ _

/-- Claim C2: after `remap_movie_ids_perfect`, every row's `MOVIE_ID` equals
the 1-based rank of its `NOMBRE_UNICO` among the sorted distinct
`NOMBRE_UNICO` values; consequently rows with equal keys share their
`MOVIE_ID`, and rows with distinct keys have distinct `MOVIE_ID`s
(invariant I1). -/
theorem remap_movie_ids_perfect_rank (t : List MRow) :
    (∀ r ∈ remap_movie_ids_perfect t, r.movie_id = rankOfName t r.nombre) ∧
    (∀ r1 ∈ remap_movie_ids_perfect t, ∀ r2 ∈ remap_movie_ids_perfect t,
      (r1.nombre = r2.nombre → r1.movie_id = r2.movie_id) ∧
      (r1.nombre ≠ r2.nombre → r1.movie_id ≠ r2.movie_id)) := by
  have hform : ∀ r ∈ remap_movie_ids_perfect t,
      r.movie_id = (sortedUniqueNames t).indexOf r.nombre + 1 ∧
        r.nombre ∈ sortedUniqueNames t := by
    intro r hr
    obtain ⟨r0, hr0, rfl⟩ := List.mem_map.1 hr
    exact ⟨rfl, mem_sortedUniqueNames (r := r0) hr0⟩
  constructor
  · intro r hr
    obtain ⟨hid, hmem⟩ := hform r hr
    rw [hid, rankOfName, indexOf_eq_countP_lt (sorted_lt_sortedUniqueNames t) hmem,
      (perm_sortedUniqueNames t).countP_eq]
  · intro r1 hr1 r2 hr2
    obtain ⟨hid1, hmem1⟩ := hform r1 hr1
    obtain ⟨hid2, hmem2⟩ := hform r2 hr2
    constructor
    · intro he
      rw [hid1, hid2, he]
    · intro hne hide
      rw [hid1, hid2] at hide
      have hidx : (sortedUniqueNames t).indexOf r1.nombre
          = (sortedUniqueNames t).indexOf r2.nombre := by omega
      have h1 := List.indexOf_get (List.indexOf_lt_length.2 hmem1)
      have h2 := List.indexOf_get (List.indexOf_lt_length.2 hmem2)
      apply hne
      rw [← h1, ← h2]
      congr 1
      exact Fin.ext hidx

/-- Witness for claim C2 on a concrete three-row table. -/
theorem remap_movie_ids_perfect_rank_witness :
    (⟨"B", 2⟩ : MRow) ∈ remap_movie_ids_perfect [⟨"B", 7⟩, ⟨"A", 3⟩, ⟨"B", 9⟩] ∧
      (⟨"B", 2⟩ : MRow).movie_id = rankOfName [⟨"B", 7⟩, ⟨"A", 3⟩, ⟨"B", 9⟩] "B" :=
  ⟨by decide,
    (remap_movie_ids_perfect_rank [⟨"B", 7⟩, ⟨"A", 3⟩, ⟨"B", 9⟩]).1 ⟨"B", 2⟩ (by decide)⟩

theorem isEmptyCell_iff {o : Option String} : isEmptyCell o ↔ isEmptyCellB o = true := by
  cases o with
  | none => simp [isEmptyCell, isEmptyCellB]
  | some s =>
    simp [isEmptyCell, isEmptyCellB]

/-! ## Characterising the pandas mode election -/
theorem le_foldr_max (l : List Nat) : ∀ x ∈ l, x ≤ l.foldr max 0 := by
  induction l with
  | nil => intro x hx; simp at hx
  | cons a t ih =>
    intro x hx
    rcases List.mem_cons.1 hx with rfl | hx
    · exact Nat.le_max_left _ _
    · exact Nat.le_trans (ih x hx) (Nat.le_max_right _ _)

theorem foldr_max_mem : ∀ (l : List Nat), l ≠ [] → l.foldr max 0 ∈ l := by
  intro l
  induction l with
  | nil => intro h; exact absurd rfl h
  | cons a t ih =>
    intro _
    cases t with
    | nil => simp
    | cons b u =>
      rcases Nat.le_total ((b :: u).foldr max 0) a with h | h
      · rw [List.foldr_cons, Nat.max_eq_left h]
        exact List.mem_cons_self _ _
      · rw [List.foldr_cons, Nat.max_eq_right h]
        exact List.mem_cons_of_mem _ (ih (by simp))

theorem charsLe_refl : ∀ x : List Char, charsLe x x = true := by
  intro x
  induction x with
  | nil => rfl
  | cons a as ih => simp [charsLe, Nat.lt_irrefl, ih]

theorem pyStrLe_refl (a : String) : pyStrLe a a = true := charsLe_refl a.data

theorem sorted_headD_le {l : List String}
    (hs : List.Sorted (fun a b => pyStrLe a b = true) l) :
    ∀ x ∈ l, pyStrLe (l.headD "") x = true := by
  cases l with
  | nil => intro x hx; simp at hx
  | cons h t =>
    intro x hx
    rcases List.mem_cons.1 hx with rfl | hx
    · exact pyStrLe_refl x
    · exact (List.sorted_cons.1 hs).1 x hx

theorem headD_mem {l : List String} (h : l ≠ []) : l.headD "" ∈ l := by
  cases l with
  | nil => exact absurd rfl h
  | cons a t => exact List.mem_cons_self _ _

theorem pandasMode_eq (vs : List String) :
    pandasMode vs = (List.insertionSort (fun a b => pyStrLe a b = true)
      ((vs.filter (fun v => vs.count v
          == (vs.map (fun v => vs.count v)).foldr max 0)).dedup)).headD "" := rfl

theorem pandasMode_isModalMin (vs : List String) (h : vs ≠ []) :
    IsModalMin vs (pandasMode vs) := by
  have hmax : ∀ v ∈ vs, vs.count v ≤ (vs.map (fun v => vs.count v)).foldr max 0 :=
    fun v hv => le_foldr_max _ _ (List.mem_map.2 ⟨v, hv, rfl⟩)
  obtain ⟨v0, hv0, hv0m⟩ :
      ∃ v ∈ vs, vs.count v = (vs.map (fun v => vs.count v)).foldr max 0 := by
    have hm : (vs.map (fun v => vs.count v)).foldr max 0 ∈ vs.map (fun v => vs.count v) :=
      foldr_max_mem _ (fun he => h (List.map_eq_nil_iff.1 he))
    obtain ⟨v, hv, hveq⟩ := List.mem_map.1 hm
    exact ⟨v, hv, hveq⟩
  have hsorted := List.sorted_insertionSort (fun a b => pyStrLe a b = true)
    ((vs.filter (fun v => vs.count v
        == (vs.map (fun v => vs.count v)).foldr max 0)).dedup)
  have hperm := List.perm_insertionSort (fun a b => pyStrLe a b = true)
    ((vs.filter (fun v => vs.count v
        == (vs.map (fun v => vs.count v)).foldr max 0)).dedup)
  have hmodal0 : v0 ∈ (vs.filter (fun v => vs.count v
      == (vs.map (fun v => vs.count v)).foldr max 0)).dedup :=
    List.mem_dedup.2 (List.mem_filter.2 ⟨hv0, by simp [hv0m]⟩)
  have hsortne : List.insertionSort (fun a b => pyStrLe a b = true)
      ((vs.filter (fun v => vs.count v
          == (vs.map (fun v => vs.count v)).foldr max 0)).dedup) ≠ [] := by
    intro he
    rw [he] at hperm
    rw [hperm.symm.eq_nil] at hmodal0
    simp at hmodal0
  have hemem : pandasMode vs ∈ (vs.filter (fun v => vs.count v
      == (vs.map (fun v => vs.count v)).foldr max 0)).dedup := by
    rw [pandasMode_eq]
    exact hperm.mem_iff.1 (headD_mem hsortne)
  have hefil := List.mem_filter.1 (List.mem_dedup.1 hemem)
  have hevs : pandasMode vs ∈ vs := hefil.1
  have hecount : vs.count (pandasMode vs) = (vs.map (fun v => vs.count v)).foldr max 0 := by
    have := hefil.2
    simpa using this
  refine ⟨hevs, ?_, ?_⟩
  · intro v hv
    rw [hecount]
    exact hmax v hv
  · intro v hv hvc
    have hvfil : v ∈ (vs.filter (fun v => vs.count v
        == (vs.map (fun v => vs.count v)).foldr max 0)).dedup :=
      List.mem_dedup.2 (List.mem_filter.2 ⟨hv, by simp [hvc, hecount]⟩)
    have hvsort := hperm.mem_iff.2 hvfil
    have := sorted_headD_le hsorted v hvsort
    rw [pandasMode_eq]
    exact this

/-- Claim C4, counterexample: in a three-row group whose `DIRECTOR` values
are `ZEBRA`, `APPLE` and an empty slot, both non-empty values occur once;
the claim's first-occurrence tie-break elects `ZEBRA`, but pandas
`mode()[0]` sorts the tied values and the empty slot receives `APPLE`. -/
theorem propagate_tie_counterexample :
    getField ((propagate_data_within_groups
        [rowKD (some "M") (some "ZEBRA"), rowKD (some "M") (some "APPLE"),
         rowKD (some "M") none])[2]) EField.director = some "APPLE"
    ∧ specModeFirstOccurrence (nonEmptyVals
        [rowKD (some "M") (some "ZEBRA"), rowKD (some "M") (some "APPLE"),
         rowKD (some "M") none] "M" EField.director) = "ZEBRA"
    ∧ ("APPLE" : String) ≠ "ZEBRA" := by decide

/-- Claim C4, amended: after `propagate_data_within_groups`, every
previously empty slot of a propagated field, in a group of size above one
having at least one non-empty value for that field, holds the modal
non-empty value — with ties broken by ascending code-point order (pandas
`mode()[0]`), not by first occurrence. -/
theorem propagate_fills_empty_with_mode (t : List ERow) (i : Nat) (k : String) (f : EField)
    (hi : i < t.length) (hi2 : i < (propagate_data_within_groups t).length)
    (hf : f ∈ [EField.categoria, EField.descripcion, EField.actor_principal,
      EField.director, EField.duracion, EField.familia])
    (hk : t[i].nombre_unico = some k)
    (hgrp : 1 < (groupOf t k).length)
    (hne : nonEmptyVals t k f ≠ [])
    (hempty : isEmptyCell (getField t[i] f)) :
    getField ((propagate_data_within_groups t)[i]) f
      = some (pandasMode (nonEmptyVals t k f))
    ∧ IsModalMin (nonEmptyVals t k f) (pandasMode (nonEmptyVals t k f)) := by
  refine ⟨?_, pandasMode_isModalMin _ hne⟩
  have hB : isEmptyCellB (getField t[i] f) = true := isEmptyCell_iff.1 hempty
  have hE : (nonEmptyVals t k f).isEmpty = false := by
    cases hnel : nonEmptyVals t k f with
    | nil => exact absurd hnel hne
    | cons a l => rfl
  simp only [propagate_data_within_groups, List.getElem_map]
  simp only [hk]
  rw [if_pos hgrp]
  cases f <;>
    simp only [getField] at hB ⊢ <;>
    · rw [propagCell, if_pos]
      rw [hB, hE]
      rfl

/-- Witness for the amended claim C4 on the concrete three-row group. -/
theorem propagate_fills_empty_with_mode_witness :
    1 < (groupOf [rowKD (some "M") (some "ZEBRA"), rowKD (some "M") (some "APPLE"),
        rowKD (some "M") none] "M").length
    ∧ isEmptyCell (getField ([rowKD (some "M") (some "ZEBRA"),
        rowKD (some "M") (some "APPLE"), rowKD (some "M") none][2]) EField.director)
    ∧ (getField ((propagate_data_within_groups
          [rowKD (some "M") (some "ZEBRA"), rowKD (some "M") (some "APPLE"),
           rowKD (some "M") none])[2]) EField.director
        = some (pandasMode (nonEmptyVals [rowKD (some "M") (some "ZEBRA"),
            rowKD (some "M") (some "APPLE"), rowKD (some "M") none] "M" EField.director))
      ∧ IsModalMin (nonEmptyVals [rowKD (some "M") (some "ZEBRA"),
          rowKD (some "M") (some "APPLE"), rowKD (some "M") none] "M" EField.director)
        (pandasMode (nonEmptyVals [rowKD (some "M") (some "ZEBRA"),
          rowKD (some "M") (some "APPLE"), rowKD (some "M") none] "M" EField.director))) :=
  ⟨by decide, by decide,
    propagate_fills_empty_with_mode
      [rowKD (some "M") (some "ZEBRA"), rowKD (some "M") (some "APPLE"),
       rowKD (some "M") none] 2 "M" EField.director
      (by decide) (by decide) (by decide) (by decide) (by decide) (by decide) (by decide)⟩

/-! ## Claim C5: overwriting in the replication passes -/
theorem foldl_pick_mem {vs : List String} :
    ∀ (l : List String) (acc : String), acc ∈ vs → (∀ x ∈ l, x ∈ vs) →
      (l.foldl (fun best v => if vs.count v > vs.count best then v else best) acc) ∈ vs := by
  intro l
  induction l with
  | nil => intro acc hacc _; exact hacc
  | cons x xs ih =>
    intro acc hacc hl
    rw [List.foldl_cons]
    apply ih
    · by_cases hc : vs.count x > vs.count acc
      · rw [if_pos hc]; exact hl x (List.mem_cons_self _ _)
      · rw [if_neg hc]; exact hacc
    · intro y hy
      exact hl y (List.mem_cons_of_mem _ hy)

theorem valueCountsTop_mem {vs : List String} (h : vs ≠ []) : valueCountsTop vs ∈ vs := by
  unfold valueCountsTop
  exact foldl_pick_mem vs (vs.headD "") (headD_mem h) (fun x hx => hx)

theorem nonEmptyVals_ne_empty {t : List ERow} {k : String} {f : EField} {v : String}
    (hv : v ∈ nonEmptyVals t k f) : v ≠ "" := by
  have := (List.mem_filter.1 hv).2
  intro he
  rw [he] at this
  simp at this

/-- Claim C5, counterexample: in a group whose `DIRECTOR` values are
`A`, `A`, `B`, the third row's non-empty minority value `B` is overwritten
with the modal value `A` by `vertical_replication`, so the pass does change
already non-empty metadata. -/
theorem vertical_replication_overwrites :
    getField ([rowKD (some "M") (some "A"), rowKD (some "M") (some "A"),
        rowKD (some "M") (some "B")][2]) EField.director = some "B"
    ∧ getField ((vertical_replication
        [rowKD (some "M") (some "A"), rowKD (some "M") (some "A"),
         rowKD (some "M") (some "B")])[2]) EField.director = some "A"
    ∧ (some "A" : Option String) ≠ some "B" := by decide

/-- Claim C5, amended: `vertical_replication` never clears a non-empty
metadata field — the elected value is always one of the group's non-empty
values — but it may replace a non-empty minority value with the group's
most frequent value (see the counterexample). -/
theorem vertical_replication_keeps_nonempty (t : List ERow) (i : Nat) (f : EField)
    (hi : i < t.length) (hi2 : i < (vertical_replication t).length)
    (hnonempty : ¬ isEmptyCell (getField t[i] f)) :
    ¬ isEmptyCell (getField ((vertical_replication t)[i]) f) := by
  simp only [vertical_replication, List.getElem_map]
  rcases hk : t[i].nombre_unico with _ | k
  · simp only [hk]
    exact hnonempty
  · simp only [hk]
    by_cases hke : k = ""
    · rw [if_pos hke]
      exact hnonempty
    · rw [if_neg hke]
      have hcell : ∀ v : Option String, ¬ isEmptyCell v → ¬ isEmptyCell (vrCell t k f v) := by
        intro v hv
        rw [vrCell]
        by_cases hne : (nonEmptyVals t k f).isEmpty = true
        · simp [hne]
          exact hv
        · have hne2 : nonEmptyVals t k f ≠ [] := by
            intro he
            exact hne (by rw [he]; rfl)
          rw [if_pos (by simp [Bool.not_eq_true] at hne ⊢; exact hne)]
          intro hcon
          rcases hcon with hcon | hcon
          · simp at hcon
          · have hv2 : valueCountsTop (nonEmptyVals t k f) = "" := by
              injection hcon
            exact nonEmptyVals_ne_empty (valueCountsTop_mem hne2) hv2
      cases f <;> simp only [getField] at hnonempty ⊢ <;> exact hcell _ hnonempty

/-- Witness for the amended claim C5 on a concrete one-row table. -/
theorem vertical_replication_keeps_nonempty_witness :
    ¬ isEmptyCell (getField ([rowKD (some "M") (some "A")][0]) EField.director)
    ∧ ¬ isEmptyCell (getField ((vertical_replication
        [rowKD (some "M") (some "A")])[0]) EField.director) :=
  ⟨by decide,
    vertical_replication_keeps_nonempty [rowKD (some "M") (some "A")] 0 EField.director
      (by decide) (by decide) (by decide)⟩

/-! ## Claim C7: horizontal coherence after the propagator -/
/-- Claim C7, counterexample: `ensure_vertical_coherence` never writes
`DESCRIPCION2` (it is not in `coherent_fields`), so a row entering with
`DESCRIPCION = "Y"` and `DESCRIPCION2 = "X"` leaves the propagator with the
two description mirrors still different. -/
theorem evc_descripcion_mirror_counterexample :
    ((ensure_vertical_coherence
        [eRow (some "M") none (some "Y") none none none none none (some "X")])[0]).descripcion
      = some "Y"
    ∧ ((ensure_vertical_coherence
        [eRow (some "M") none (some "Y") none none none none none (some "X")])[0]).descripcion2
      = some "X"
    ∧ (some "Y" : Option String) ≠ some "X" := by decide

/-- Claim C7, amended: after `ensure_vertical_coherence` every row
satisfies `CATEGORIA_CINEPOLIS = CATEGORIA` (the final unconditional
re-assertion); the `DESCRIPCION = DESCRIPCION2` half of the claimed
horizontal coherence is not established — `DESCRIPCION2` is never written
by this propagator (see the counterexample). -/
theorem evc_horizontal_categoria (t : List ERow) (i : Nat)
    (hi : i < (ensure_vertical_coherence t).length) :
    ((ensure_vertical_coherence t)[i]).categoria_cinepolis
      = ((ensure_vertical_coherence t)[i]).categoria := by
  have hi1 : i < (evcPass1 t).length := by
    simpa [ensure_vertical_coherence] using hi
  simp only [ensure_vertical_coherence, List.getElem_map]

/-- Witness for the amended claim C7 on a concrete one-row table. -/
theorem evc_horizontal_categoria_witness :
    0 < (ensure_vertical_coherence
        [eRow (some "M") (some "DRAMA") none none none none none (some "OLD") none]).length
    ∧ ((ensure_vertical_coherence
        [eRow (some "M") (some "DRAMA") none none none none none (some "OLD") none])[0]).categoria_cinepolis
      = ((ensure_vertical_coherence
        [eRow (some "M") (some "DRAMA") none none none none none (some "OLD") none])[0]).categoria :=
  ⟨by decide,
    evc_horizontal_categoria
      [eRow (some "M") (some "DRAMA") none none none none none (some "OLD") none] 0 (by decide)⟩

theorem getS_mergeStep (comb info : SourceInfo) (f : SField) :
    getS (mergeStep comb info) f
      = if getS info f ≠ "" ∧ getS comb f = "" then getS info f else getS comb f := by
  cases f <;> rfl

theorem getS_emptyInfo (f : SField) : getS emptyInfo f = "" := by
  cases f <;> rfl

theorem allFull_ne {c : SourceInfo} (f : SField) (h : allFull c = true) :
    getS c f ≠ "" := by
  cases f <;> simp_all [allFull, getS]

theorem mergeSources_spec : ∀ (results : List SourceInfo) (comb : SourceInfo) (f : SField),
    getS (mergeSources comb results) f
      = if getS comb f ≠ "" then getS comb f
        else firstNonEmpty (results.map (fun i => getS i f)) := by
  intro results
  induction results with
  | nil =>
    intro comb f
    by_cases h : getS comb f = "" <;> simp [mergeSources, firstNonEmpty, h]
  | cons i is ih =>
    intro comb f
    rw [mergeSources]
    by_cases hful : allFull (mergeStep comb i) = true
    · rw [if_pos hful]
      have hne := allFull_ne f hful
      rw [getS_mergeStep] at hne ⊢
      by_cases hc : getS comb f = ""
      · by_cases hif : getS i f = ""
        · rw [if_neg (by simp [hif])] at hne
          exact absurd hc hne
        · simp [hif, hc, firstNonEmpty]
      · simp [hc, firstNonEmpty]
    · rw [if_neg hful, ih]
      rw [getS_mergeStep]
      by_cases hc : getS comb f = ""
      · by_cases hif : getS i f = ""
        · simp [hif, hc, firstNonEmpty]
        · simp [hif, hc, firstNonEmpty]
      · simp [hc, firstNonEmpty]

/-- Claim C6: the merge is first-non-empty-wins — for every field, the
merged record carries the value of the earliest source in priority order
with a non-empty value for that field; instantiated on the spec's example,
source A with category `ACCION` and source B with category `DRAMA` and
director `X` merge to category `ACCION` and director `X`. -/
theorem comprehensive_search_first_nonempty :
    (∀ (results : List SourceInfo) (f : SField),
      getS (comprehensive_search results) f
        = firstNonEmpty (results.map (fun i => getS i f)))
    ∧ getS (comprehensive_search
        [⟨"ACCION", "", "", "", ""⟩, ⟨"DRAMA", "", "", "X", ""⟩]) SField.categoria = "ACCION"
    ∧ getS (comprehensive_search
        [⟨"ACCION", "", "", "", ""⟩, ⟨"DRAMA", "", "", "X", ""⟩]) SField.director = "X" := by
  refine ⟨?_, by decide, by decide⟩
  intro results f
  unfold comprehensive_search
  rw [mergeSources_spec]
  simp [getS_emptyInfo]

theorem mem_uniqueFirstAux_of : ∀ (l seen : List String) (x : String),
    x ∈ l → x ∉ seen → x ∈ uniqueFirstAux seen l := by
  intro l
  induction l with
  | nil => intro seen x hx _; simp at hx
  | cons a xs ih =>
    intro seen x hx hs
    rw [uniqueFirstAux]
    by_cases ha : a ∈ seen
    · rw [if_pos ha]
      rcases List.mem_cons.1 hx with rfl | hx2
      · exact absurd ha hs
      · exact ih seen x hx2 hs
    · rw [if_neg ha]
      by_cases hxa : x = a
      · rw [hxa]; exact List.mem_cons_self _ _
      · rcases List.mem_cons.1 hx with h | hx2
        · exact absurd h hxa
        · refine List.mem_cons_of_mem _ (ih (a :: seen) x hx2 ?_)
          intro hc
          rcases List.mem_cons.1 hc with h | h
          · exact hxa h
          · exact hs h

theorem reassignGo_spec (uniq : List String) :
    ∀ (rows : List GRow) (next : Nat), uniq.length < next →
      (∀ r ∈ rows, ∀ n, r.nombre_unico = some n → n ∈ uniq) →
      ∀ r2 ∈ reassignGo uniq next rows,
        (∀ n, r2.nombre_unico = some n →
          r2.movie_id = uniq.indexOf n + 1 ∧ r2.movie_id ≤ uniq.length)
        ∧ (r2.nombre_unico = none → next ≤ r2.movie_id) := by
  intro rows
  induction rows with
  | nil =>
    intro next _ _ r2 h2
    simp [reassignGo] at h2
  | cons r rs ih =>
    intro next hnext hmem r2 h2
    rw [reassignGo] at h2
    rcases hr : r.nombre_unico with _ | n
    · rw [hr] at h2
      rcases List.mem_cons.1 h2 with rfl | h2t
      · refine ⟨?_, ?_⟩
        · intro n hn
          simp at hn
        · intro _
          exact Nat.le_refl next
      · have := ih (next + 1) (Nat.lt_succ_of_lt hnext)
          (fun r3 h3 => hmem r3 (List.mem_cons_of_mem _ h3)) r2 h2t
        exact ⟨this.1, fun hn => Nat.le_of_succ_le (this.2 hn)⟩
    · rw [hr] at h2
      rcases List.mem_cons.1 h2 with rfl | h2t
      · refine ⟨?_, ?_⟩
        · intro n2 hn2
          simp at hn2
          rw [← hn2]
          refine ⟨rfl, ?_⟩
          have hn : n ∈ uniq := hmem r (List.mem_cons_self _ _) n hr
          exact Nat.succ_le_of_lt (List.indexOf_lt_length.2 hn)
        · intro hn
          simp at hn
      · exact ih next hnext (fun r3 h3 => hmem r3 (List.mem_cons_of_mem _ h3)) r2 h2t

/-- Claim C9, counterexample: in `process_all_records` pass 2, a record
whose canonical key is empty (never inserted by pass 1) and a record whose
key is absent from the catalog both receive `MOVIE_ID` 0 — not a fresh
trailing positive ID. -/
theorem pass2_movie_id_counterexample :
    pass2_movie_id [("DUNE", 1)] "" = 0 ∧ pass2_movie_id [("DUNE", 1)] "MATRIX" = 0 := by
  decide

/-- Claim C9, amended: in `reassign_movie_ids` every row receives a
positive `MOVIE_ID`, and a NaN-key row receives a fresh trailing ID larger
than every real key's ID; but in `process_all_records` pass 2, empty-key or
catalog-absent records receive the sentinel `MOVIE_ID` 0 (see the
counterexample). -/
theorem reassign_movie_ids_trailing (t : List GRow) :
    ∀ r ∈ reassign_movie_ids t,
      1 ≤ r.movie_id ∧
      (r.nombre_unico = none →
        ∀ r2 ∈ reassign_movie_ids t, r2.nombre_unico ≠ none → r2.movie_id < r.movie_id) := by
  have hmem : ∀ r ∈ t, ∀ n, r.nombre_unico = some n
      → n ∈ uniqueFirst (t.filterMap GRow.nombre_unico) := by
    intro r hr n hn
    exact mem_uniqueFirstAux_of _ [] n
      (List.mem_filterMap.2 ⟨r, hr, hn⟩) (by simp)
  have hspec := reassignGo_spec (uniqueFirst (t.filterMap GRow.nombre_unico)) t
    ((uniqueFirst (t.filterMap GRow.nombre_unico)).length + 1)
    (Nat.lt_succ_self _) hmem
  intro r hr
  refine ⟨?_, ?_⟩
  · rcases hno : r.nombre_unico with _ | n
    · have := (hspec r hr).2 hno
      omega
    · have := ((hspec r hr).1 n hno).1
      omega
  · intro hnone r2 hr2 hne2
    have h1 := (hspec r hr).2 hnone
    rcases hn2 : r2.nombre_unico with _ | n2
    · exact absurd hn2 hne2
    · have h2 := ((hspec r2 hr2).1 n2 hn2).2
      omega

/-- Witness for the amended claim C9 on a concrete two-row table. -/
theorem reassign_movie_ids_trailing_witness :
    (⟨none, 2⟩ : GRow) ∈ reassign_movie_ids [⟨some "A", 0⟩, ⟨none, 0⟩] ∧
      (1 ≤ (⟨none, 2⟩ : GRow).movie_id ∧
        ((⟨none, 2⟩ : GRow).nombre_unico = none →
          ∀ r2 ∈ reassign_movie_ids [⟨some "A", 0⟩, ⟨none, 0⟩],
            r2.nombre_unico ≠ none → r2.movie_id < (⟨none, 2⟩ : GRow).movie_id)) :=
  ⟨by decide,
    reassign_movie_ids_trailing [⟨some "A", 0⟩, ⟨none, 0⟩] ⟨none, 2⟩ (by decide)⟩

/-- Claim C10: the validator certifies only a table of exactly 2372 rows,
16 columns and 885 distinct `NOMBRE_UNICO` values — its structural checks
compare against these constants, so any other row count, column count or
unique-movie count makes `validate_dataset` return `False`. -/
theorem validate_dataset_fixed_constants (ncols : Nat) (rows : List VRow)
    (h : rows.length ≠ 2372 ∨ ncols ≠ 16 ∨ nuniqueNombre rows ≠ 885) :
    validate_dataset ncols rows = false := by
  rcases h with h | h | h
  · have h1 : (rows.length == 2372) = false := by simpa using h
    simp [validate_dataset, h1]
  · have h1 : (ncols == 16) = false := by simpa using h
    simp [validate_dataset, h1]
  · have h1 : (nuniqueNombre rows == 885) = false := by simpa using h
    simp [validate_dataset, h1]

/-- Witness for claim C10: the empty table has the wrong row count and is
rejected. -/
theorem validate_dataset_fixed_constants_witness :
    ([] : List VRow).length ≠ 2372 ∧ validate_dataset 16 [] = false :=
  ⟨by decide, validate_dataset_fixed_constants 16 [] (Or.inl (by decide))⟩
